import Mathlib

/-!
A verification development for the Moodle-Downloader-2 repository.

It embeds, as Lean definitions:
* the change filter `MoodleService._filter_courses`
  (src/moodle_connector/moodle_service.py), including the in-place
  rebinding of `course.files` that the Python loop performs;
* the configuration helper `ConfigHelper`
  (src/config_service/config_helper.py), with explicit state passing so
  that frame effects (which getters touch the configuration) are visible;
* the reconciliation engine (`diff`) and the persisted state store, which
  are not part of the provided sources; those definitions are modelled
  from the specification's algorithm (spec sections 4.1 and 4.2) and are
  marked as such in their doc comments.

Machine integers play no role here; ids and sizes are natural numbers or
integers, strings are Lean strings.
-/

set_option maxHeartbeats 1000000

/-- A file record as the change filter and the console notifier see it:
`content_type` (the content category string), `saved_to` (the path) and
the classification flags set by the state recorder. Mirrors the fields of
`state_recorder.file.File` that src/ code reads. -/
structure CFile where
  content_type : String
  saved_to : String
  modified : Bool
  moved : Bool
  deleted : Bool
deriving DecidableEq, Repr

/-- A course as `MoodleService._filter_courses` sees it: an id, a full
name and a mutable list of files. Mirrors `state_recorder.course.Course`. -/
structure Course where
  id : Int
  fullname : String
  files : List CFile
deriving DecidableEq, Repr

/-- Modelled from the spec: `ResultsHandler._should_download_course` is not
among the provided sources (only its callers are).  The spec says the filter
drops "entire courses not selected by the allow-list (or present in the
deny-list)"; a course is selected iff the allow-list is empty or contains its
id, and the deny-list does not contain it. -/
def should_download_course (course_id : Int) (download_course_ids : List Int)
    (dont_download_course_ids : List Int) : Bool :=
  (download_course_ids.isEmpty || download_course_ids.contains course_id)
    && !(dont_download_course_ids.contains course_id)

/-- The three category passes of `MoodleService._filter_courses`: each
`if not download_x:` block rebuilds `course.files` without the files of the
corresponding content type; an enabled toggle leaves the list untouched. -/
def filter_course_files (download_submissions download_descriptions
    download_databases : Bool) (files : List CFile) : List CFile :=
  let files1 := if download_submissions then files
    else files.filter (fun f => f.content_type ≠ "submission_file")
  let files2 := if download_descriptions then files1
    else files1.filter (fun f => f.content_type ≠ "description")
  if download_databases then files2
    else files2.filter (fun f => f.content_type ≠ "database_file")

/-- Embedding of `MoodleService._filter_courses`.  The Python loop mutates
each input `Course` in place (it rebinds `course.files` to the
category-filtered list) and appends the very same object to
`filtered_changes` when the course is selected and its remaining file list
is non-empty.  The first component of the result is the post-call state of
the input course objects (the heap effect); the second component is the
returned `filtered_changes` list. -/
def filter_courses (changes : List Course) (download_course_ids : List Int)
    (dont_download_course_ids : List Int) (download_submissions : Bool)
    (download_descriptions : Bool) (download_databases : Bool) :
    List Course × List Course :=
  match changes with
  | [] => ([], [])
  | course :: rest =>
    let course' := { course with
      files := filter_course_files download_submissions download_descriptions
        download_databases course.files }
    let r := filter_courses rest download_course_ids dont_download_course_ids
      download_submissions download_descriptions download_databases
    (course' :: r.1,
      if should_download_course course'.id download_course_ids
            dont_download_course_ids
          && decide (0 < course'.files.length)
        then course' :: r.2 else r.2)

/-! ## Configuration helper (`ConfigHelper`) -/

/-- A JSON value of one of the shapes the configuration actually stores:
booleans (toggles), strings (token, domain, path), numbers, lists of course
ids, and string-to-string dictionaries (the filename character map; also
standing in for the nested course-options dictionaries, whose inner shape
no claim depends on). -/
inductive JValue where
  | bool (b : Bool)
  | str (s : String)
  | num (n : Int)
  | intList (l : List Int)
  | strMap (m : List (String × String))
deriving DecidableEq, Repr

/-- The state of a `ConfigHelper`: the in-memory `_whole_config` dictionary
and the content last written to the configuration file by `_save`. -/
structure ConfigState where
  whole_config : List (String × JValue)
  disk : List (String × JValue)
deriving DecidableEq, Repr

/-- Dictionary lookup in `_whole_config` (Python `self._whole_config[key]`,
`none` standing for a `KeyError`). -/
def configLookup (m : List (String × JValue)) (key : String) : Option JValue :=
  (m.find? (fun p => p.1 == key)).map (fun p => p.2)

/-- Python `dict.update({key: value})`: replace the binding if the key is
present, otherwise append it. -/
def dictSet (m : List (String × JValue)) (key : String) (value : JValue) :
    List (String × JValue) :=
  if m.any (fun p => p.1 == key) then
    m.map (fun p => if p.1 == key then (key, value) else p)
  else
    m ++ [(key, value)]

/-- `ConfigHelper.get_property`: returns the stored value, or a
`ValueError` message when the key is absent. -/
def get_property (s : ConfigState) (key : String) : Except String JValue :=
  match configLookup s.whole_config key with
  | some v => Except.ok v
  | none => Except.error ("The " ++ key ++ "-Property is not yet configured!")

/-- `ConfigHelper.set_property`: updates the dictionary and immediately
calls `_save`, which rewrites the configuration file. -/
def set_property (s : ConfigState) (key : String) (value : JValue) :
    ConfigState :=
  let cfg := dictSet s.whole_config key value
  { whole_config := cfg, disk := cfg }

/-- The default Windows `filename_character_map` literal from
`ConfigHelper.set_default_filename_character_map`. -/
def windows_map : JValue :=
  JValue.strMap [("\\", "＼"), ("/", "／"), (":", "꞉"), ("?", "？"),
    ("*", "＊"), ("<", "＜"), (">", "＞"), ("|", "｜"), ("\"", "＂")]

/-- The Linux map literal from the same method. -/
def linux_map : JValue := JValue.strMap [("/", "|")]

/-- `ConfigHelper.set_default_filename_character_map`. -/
def set_default_filename_character_map (s : ConfigState)
    (default_windows_map : Bool) : ConfigState :=
  if default_windows_map then
    set_property s "filename_character_map" windows_map
  else
    set_property s "filename_character_map" linux_map

/-- `ConfigHelper.get_download_submissions`: the stored value, with `False`
as the default when `get_property` raises.  State is returned explicitly to
make the absence of side effects provable. -/
def get_download_submissions (s : ConfigState) : JValue × ConfigState :=
  match get_property s "download_submissions" with
  | Except.ok v => (v, s)
  | Except.error _ => (JValue.bool false, s)

/-- `ConfigHelper.get_download_descriptions`. -/
def get_download_descriptions (s : ConfigState) : JValue × ConfigState :=
  match get_property s "download_descriptions" with
  | Except.ok v => (v, s)
  | Except.error _ => (JValue.bool false, s)

/-- `ConfigHelper.get_download_databases`. -/
def get_download_databases (s : ConfigState) : JValue × ConfigState :=
  match get_property s "download_databases" with
  | Except.ok v => (v, s)
  | Except.error _ => (JValue.bool false, s)

/-- `ConfigHelper.get_download_course_ids`: defaults to the empty list. -/
def get_download_course_ids (s : ConfigState) : JValue × ConfigState :=
  match get_property s "download_course_ids" with
  | Except.ok v => (v, s)
  | Except.error _ => (JValue.intList [], s)

/-- `ConfigHelper.get_dont_download_course_ids`: defaults to the empty
list. -/
def get_dont_download_course_ids (s : ConfigState) : JValue × ConfigState :=
  match get_property s "dont_download_course_ids" with
  | Except.ok v => (v, s)
  | Except.error _ => (JValue.intList [], s)

/-- `ConfigHelper.get_download_linked_files`: defaults to `False`. -/
def get_download_linked_files (s : ConfigState) : JValue × ConfigState :=
  match get_property s "download_linked_files" with
  | Except.ok v => (v, s)
  | Except.error _ => (JValue.bool false, s)

/-- `ConfigHelper.get_options_of_courses`: defaults to the empty
dictionary. -/
def get_options_of_courses (s : ConfigState) : JValue × ConfigState :=
  match get_property s "options_of_courses" with
  | Except.ok v => (v, s)
  | Except.error _ => (JValue.strMap [], s)

/-- `ConfigHelper.get_token`: re-raises as `ValueError('Not yet
configured!')` when the key is absent. -/
def get_token (s : ConfigState) : Except String JValue × ConfigState :=
  (match get_property s "token" with
   | Except.ok v => Except.ok v
   | Except.error _ => Except.error "Not yet configured!", s)

/-- `ConfigHelper.get_moodle_domain`. -/
def get_moodle_domain (s : ConfigState) : Except String JValue × ConfigState :=
  (match get_property s "moodle_domain" with
   | Except.ok v => Except.ok v
   | Except.error _ => Except.error "Not yet configured!", s)

/-- `ConfigHelper.get_moodle_path`. -/
def get_moodle_path (s : ConfigState) : Except String JValue × ConfigState :=
  (match get_property s "moodle_path" with
   | Except.ok v => Except.ok v
   | Except.error _ => Except.error "Not yet configured!", s)

/-- `ConfigHelper.get_download_options`: assembles the three option entries
(`download_linked_files`, `download_domains_whitelist`,
`download_domains_blacklist`) with per-key defaults; reads only. -/
def get_download_options (s : ConfigState) :
    (JValue × JValue × JValue) × ConfigState :=
  let linked := match get_property s "download_linked_files" with
    | Except.ok v => v
    | Except.error _ => JValue.bool false
  let white := match get_property s "download_domains_whitelist" with
    | Except.ok v => v
    | Except.error _ => JValue.intList []
  let black := match get_property s "download_domains_blacklist" with
    | Except.ok v => v
    | Except.error _ => JValue.intList []
  ((linked, white, black), s)

/-- `ConfigHelper.get_filename_character_map`: returns the stored map; when
the key is absent it first stores the default Windows map via
`set_default_filename_character_map(True)` (a `set_property`, hence a file
rewrite) and then returns the freshly stored value.  The inner `error`
branch is unreachable (the key has just been set) and returns a dummy. -/
def get_filename_character_map (s : ConfigState) : JValue × ConfigState :=
  match get_property s "filename_character_map" with
  | Except.ok v => (v, s)
  | Except.error _ =>
    let s' := set_default_filename_character_map s true
    match get_property s' "filename_character_map" with
    | Except.ok v => (v, s')
    | Except.error _ => (JValue.strMap [], s')

/-! ## Reconciliation engine (spec section 4.1)

The state recorder that implements the diff is not among the provided
sources; everything in this section is modelled from the specification's
algorithm, step by step. -/

/-- Modelled from the spec: a snapshot / persisted-state file record with the
fields the diff uses — `identity` (the stable primary matching key),
`content_hash`, `path` and `size` (the secondary matching key is the pair
`(content_hash, size)`). -/
structure SFile where
  identity : Nat
  content_hash : String
  path : String
  size : Nat
deriving DecidableEq, Repr

/-- The four classifications of a change entry. -/
inductive ChangeKind where
  | new
  | modified
  | moved
  | deleted
deriving DecidableEq, Repr

/-- Modelled from the spec: a change entry `{ base_file, kind, linked_file }`;
`linked_file` is the other endpoint of a Moved pair. -/
structure ChangeEntry where
  base_file : SFile
  kind : ChangeKind
  linked_file : Option SFile
deriving DecidableEq, Repr

/-- Modelled from the spec: the data-integrity failure for a duplicated
identity inside one course of the new snapshot, carrying course id, the
offending identity and the competing paths. -/
structure DiffInconsistencyError where
  course_id : Nat
  identity : Nat
  competing_paths : List String
deriving DecidableEq, Repr

/-- First identity that occurs twice in a list of files, if any. -/
def findDupIdentity : List SFile → Option Nat
  | [] => none
  | f :: rest =>
    if rest.any (fun g => g.identity == f.identity) then some f.identity
    else findDupIdentity rest

/-- The candidate with the lexicographically smallest `path` (earliest on
ties) — the spec's deterministic tie-break for ambiguous secondary
matches. -/
def minByPath : List SFile → Option SFile
  | [] => none
  | g :: rest =>
    match minByPath rest with
    | none => some g
    | some b => if b.path < g.path then some b else some g

/-- Consume one old record (the spec's "consume that old entry"): remove the
first occurrence of `o`. -/
def removeOne (l : List SFile) (o : SFile) : List SFile :=
  l.eraseP (fun g => g == o)

/-- Modelled from the spec, section 4.1, step 2: process the new files in
order against the remaining unconsumed old records.  For each new file:
if its identity is found among the remaining old records, classify
Modified when the hash differs (base keeps the old path, new hash
recorded), Moved when only the path differs (base is the old record,
linked is the new record), and drop the file when nothing changed —
consuming the matched identity in all three cases; if the identity is not
found, secondary-match against the remaining old records by
`(content_hash, size)` picking the lexicographically smallest remaining
path, emit a Moved pair and consume that record, else classify New.
Returns the unconsumed old records (step 3's Deleted pool) and the emitted
entries in processing order. -/
def runDiff : List SFile → List SFile → List SFile × List ChangeEntry
  | oldRem, [] => (oldRem, [])
  | oldRem, n :: todo =>
    match oldRem.find? (fun g => g.identity == n.identity) with
    | some o =>
      let oldRem' := oldRem.filter (fun g => g.identity != n.identity)
      if o.content_hash ≠ n.content_hash then
        let r := runDiff oldRem' todo
        (r.1, { base_file := { o with content_hash := n.content_hash },
                kind := ChangeKind.modified, linked_file := none } :: r.2)
      else if o.path ≠ n.path then
        let r := runDiff oldRem' todo
        (r.1, ⟨o, ChangeKind.moved, some n⟩ :: r.2)
      else
        runDiff oldRem' todo
    | none =>
      match minByPath (oldRem.filter (fun g =>
          g.content_hash == n.content_hash && g.size == n.size)) with
      | some o =>
        let r := runDiff (removeOne oldRem o) todo
        (r.1, ⟨o, ChangeKind.moved, some n⟩ :: r.2)
      | none =>
        let r := runDiff oldRem todo
        (r.1, ⟨n, ChangeKind.new, none⟩ :: r.2)

/-- Modelled from the spec: the per-course diff.  It first enforces the
intra-snapshot uniqueness invariant (a duplicated identity in the new
snapshot aborts with `DiffInconsistencyError` before anything is
classified), then runs the matching loop and classifies every unconsumed
old record as Deleted.  The engine applies this to each course of the new
snapshot; courses absent from the new snapshot are ignored. -/
def diffCourse (course_id : Nat) (old : List SFile) (new : List SFile) :
    Except DiffInconsistencyError (List ChangeEntry) :=
  match findDupIdentity new with
  | some i =>
    Except.error ⟨course_id, i,
      (new.filter (fun f => f.identity == i)).map (fun f => f.path)⟩
  | none =>
    let r := runDiff old new
    Except.ok (r.2 ++ r.1.map (fun o => ⟨o, ChangeKind.deleted, none⟩))

/-- `Mentions e i` holds when the change entry `e` talks about file identity
`i`, either through its base file or through its linked file. -/
def Mentions (e : ChangeEntry) (i : Nat) : Bool :=
  e.base_file.identity == i ||
    (match e.linked_file with
     | some nf => nf.identity == i
     | none => false)

/-! ## Persisted state store (spec section 4.2)

The state recorder's persistence layer is not among the provided sources;
this section is modelled from the specification: `commit` writes the new
state to a temporary location and then atomically replaces the store, and
`load` reads the current store. -/

/-- Modelled from the spec: the durable medium, holding the current store
content and the temporary location used during a commit. -/
structure StoreDisk where
  main : Option (List (Nat × List SFile))
  temp : Option (List (Nat × List SFile))
deriving DecidableEq, Repr

/-- Modelled from the spec: `load` reads the current store content. -/
def storeLoad (d : StoreDisk) : Option (List (Nat × List SFile)) := d.main

/-- First step of `commit`: write the new state to the temporary
location; the previous store remains readable. -/
def commitWriteTemp (new_state : List (Nat × List SFile)) (d : StoreDisk) :
    StoreDisk :=
  { d with temp := some new_state }

/-- Second step of `commit`: atomically replace the store with the
temporary content. -/
def commitReplace (d : StoreDisk) : StoreDisk :=
  { main := d.temp, temp := none }

/-- Modelled from the spec: `commit(new_state)` as its sequence of atomic
disk steps, write-to-temporary-location then replace. -/
def commitSteps (new_state : List (Nat × List SFile)) :
    List (StoreDisk → StoreDisk) :=
  [commitWriteTemp new_state, commitReplace]

/-- Run the first `k` atomic steps of a step list — the disk state observed
when a crash happens after `k` steps. -/
def runSteps (steps : List (StoreDisk → StoreDisk)) (k : Nat) (d : StoreDisk) :
    StoreDisk :=
  (steps.take k).foldl (fun acc f => f acc) d

/-! ## General helper lemmas -/

/-- If a chosen-by-`minByPath` candidate exists, it is one of the
candidates. -/
theorem minByPath_mem {l : List SFile} {g : SFile} (h : minByPath l = some g) :
    g ∈ l := by
  induction l with
  | nil => simp [minByPath] at h
  | cons a rest ih =>
    simp only [minByPath] at h
    cases hm : minByPath rest with
    | none => rw [hm] at h; simp at h; simp [h]
    | some b =>
      rw [hm] at h
      by_cases hb : b.path < a.path
      · simp [hb] at h; subst h; exact List.mem_cons_of_mem _ (ih hm)
      · simp [hb] at h; simp [h]

/-- A list whose elements pairwise cannot both satisfy `p` has at most one
element satisfying `p`. -/
theorem length_filter_le_one {α : Type} (p : α → Bool) (l : List α)
    (h : l.Pairwise (fun a b => ¬(p a = true ∧ p b = true))) :
    (l.filter p).length ≤ 1 := by
  induction l with
  | nil => simp
  | cons a rest ih =>
    rcases List.pairwise_cons.mp h with ⟨ha, hrest⟩
    by_cases hpa : p a = true
    · have hempty : rest.filter p = [] := by
        apply List.eq_nil_iff_forall_not_mem.mpr
        intro b hb
        rcases List.mem_filter.mp hb with ⟨hbmem, hpb⟩
        exact ha b hbmem ⟨hpa, hpb⟩
      simp [List.filter_cons, hpa, hempty]
    · simp only [List.filter_cons, hpa]
      simp only [Bool.false_eq_true, if_false]
      exact ih hrest

/-! ## Claims about the change filter (C1, C2) -/

/-- C1 (counterexample): the Change Filter is claimed never to mutate the
change-set it is given, but on a course holding one submission file, with
submission downloading disabled, the post-call state of the input course
objects differs from the input: `course.files` has been rebound to the
filtered list. -/
theorem claim_C1_counterexample :
    (filter_courses [⟨3, "c", [⟨"submission_file", "x", false, false, false⟩]⟩]
        [] [] false true true).1
      ≠ [⟨3, "c", [⟨"submission_file", "x", false, false, false⟩]⟩] := by
  decide

/-- C1 (amended): the filtered result is a newly constructed list, but the
filter mutates each input course in place, rebinding its `files` list to
the category-filtered list; the inputs are left unchanged when every
category toggle is enabled. -/
theorem claim_C1_amended (changes : List Course) (allow deny : List Int)
    (ds dd ddb : Bool) :
    (filter_courses changes allow deny ds dd ddb).1
      = changes.map (fun c =>
          { c with files := filter_course_files ds dd ddb c.files }) ∧
    (ds = true → dd = true → ddb = true →
      (filter_courses changes allow deny ds dd ddb).1 = changes) := by
  have hfst : ∀ cs : List Course, (filter_courses cs allow deny ds dd ddb).1
      = cs.map (fun c =>
          { c with files := filter_course_files ds dd ddb c.files }) := by
    intro cs
    induction cs with
    | nil => rfl
    | cons c rest ih => simp only [filter_courses, List.map_cons]; rw [ih]
  refine ⟨hfst changes, ?_⟩
  intro hds hdd hddb
  subst hds; subst hdd; subst hddb
  rw [hfst changes]
  have : ∀ c : Course,
      ({ c with files := filter_course_files true true true c.files }) = c := by
    intro c; rfl
  simp only [this, List.map_id']

/-- C1 (witness): the amended theorem applied at a concrete input with all
three toggles enabled. -/
theorem claim_C1_amended_witness :
    (filter_courses [⟨3, "c", [⟨"submission_file", "x", false, false, false⟩]⟩]
        [] [] true true true).1
      = [⟨3, "c", [⟨"submission_file", "x", false, false, false⟩]⟩] :=
  (claim_C1_amended
    [⟨3, "c", [⟨"submission_file", "x", false, false, false⟩]⟩]
    [] [] true true true).2 rfl rfl rfl

/-- C2: the filter first drops the files of every disabled content
category, and only then applies the course-level selection; a course is in
the output iff it is selected by the allow/deny lists and its file list is
still non-empty after the category filtering.  Stated both as the exact
value of the returned list and as the membership characterisation. -/
theorem claim_C2 (changes : List Course) (allow deny : List Int)
    (ds dd ddb : Bool) :
    (filter_courses changes allow deny ds dd ddb).2
      = (changes.map (fun c =>
            { c with files := filter_course_files ds dd ddb c.files })).filter
          (fun c => should_download_course c.id allow deny
            && decide (0 < c.files.length)) ∧
    ∀ c : Course, c ∈ (filter_courses changes allow deny ds dd ddb).2 ↔
      ((∃ c0 ∈ changes,
          c = { c0 with files := filter_course_files ds dd ddb c0.files }) ∧
        should_download_course c.id allow deny = true ∧ 0 < c.files.length) := by
  have hsnd : ∀ cs : List Course, (filter_courses cs allow deny ds dd ddb).2
      = (cs.map (fun c =>
            { c with files := filter_course_files ds dd ddb c.files })).filter
          (fun c => should_download_course c.id allow deny
            && decide (0 < c.files.length)) := by
    intro cs
    induction cs with
    | nil => rfl
    | cons c rest ih =>
      simp only [filter_courses, List.map_cons, List.filter_cons]
      rw [ih]
  refine ⟨hsnd changes, ?_⟩
  intro c
  rw [hsnd changes]
  simp only [List.mem_filter, List.mem_map, Bool.and_eq_true, decide_eq_true_eq]
  constructor
  · rintro ⟨⟨c0, hc0, rfl⟩, hsel, hlen⟩
    exact ⟨⟨c0, hc0, rfl⟩, hsel, hlen⟩
  · rintro ⟨⟨c0, hc0, rfl⟩, hsel, hlen⟩
    exact ⟨⟨c0, hc0, rfl⟩, hsel, hlen⟩

/-! ## Claim about the persisted state store (C4) -/

/-- C4: `commit` is atomic.  A crash after any strict prefix of the commit's
atomic steps (write to the temporary location, then replace) leaves `load`
returning exactly the previous store content; only the completed commit
makes `load` return the new state. -/
theorem claim_C4 (d : StoreDisk) (new_state : List (Nat × List SFile))
    (k : Nat) (hk : k < (commitSteps new_state).length) :
    storeLoad (runSteps (commitSteps new_state) k d) = storeLoad d ∧
    storeLoad (runSteps (commitSteps new_state)
      (commitSteps new_state).length d) = some new_state := by
  refine ⟨?_, rfl⟩
  match k with
  | 0 => rfl
  | 1 => rfl
  | n + 2 => exact absurd hk (by simp [commitSteps])

/-- C4 (witness): a crash right between writing the temporary state and the
final replace, on a concrete store. -/
theorem claim_C4_witness :
    1 < (commitSteps [(2, [⟨1, "A", "p", 5⟩])]).length ∧
    storeLoad (runSteps (commitSteps [(2, [⟨1, "A", "p", 5⟩])]) 1
        ⟨some [(1, [])], none⟩)
      = storeLoad (⟨some [(1, [])], none⟩ : StoreDisk) :=
  ⟨by decide,
    (claim_C4 ⟨some [(1, [])], none⟩ [(2, [⟨1, "A", "p", 5⟩])] 1 (by decide)).1⟩

/-! ## Claims about the configuration helper (C9, C10) -/

/-- If the key is present, replacing its binding makes lookup return the
new value. -/
theorem configLookup_replaceAll (m : List (String × JValue)) (key : String)
    (v : JValue) (h : m.any (fun q => q.1 == key) = true) :
    configLookup (m.map (fun q => if q.1 == key then (key, v) else q)) key
      = some v := by
  induction m with
  | nil => simp at h
  | cons p rest ih =>
    by_cases hp : (p.1 == key) = true
    · simp only [List.map_cons, if_pos hp, configLookup]
      rw [List.find?_cons_of_pos _ (by simp)]
      rfl
    · have hrest : rest.any (fun q => q.1 == key) = true := by
        rcases List.any_eq_true.mp h with ⟨q, hq, hqk⟩
        rcases List.mem_cons.mp hq with rfl | hq'
        · exact absurd hqk hp
        · exact List.any_eq_true.mpr ⟨q, hq', hqk⟩
      simp only [List.map_cons, if_neg hp, configLookup]
      rw [show List.find? (fun q : String × JValue => q.1 == key)
            (p :: rest.map (fun q => if q.1 == key then (key, v) else q))
          = List.find? (fun q : String × JValue => q.1 == key)
            (rest.map (fun q => if q.1 == key then (key, v) else q))
        from List.find?_cons_of_neg _ hp]
      exact ih hrest

/-- If the key is absent, appending its binding makes lookup return the
new value. -/
theorem configLookup_append_single (m : List (String × JValue)) (key : String)
    (v : JValue) (h : m.any (fun q => q.1 == key) = false) :
    configLookup (m ++ [(key, v)]) key = some v := by
  induction m with
  | nil => simp [configLookup]
  | cons p rest ih =>
    have hp : (p.1 == key) = false := by
      by_contra hc
      have : (p.1 == key) = true := by
        cases hpk : (p.1 == key) with
        | true => rfl
        | false => exact absurd hpk hc
      simp [List.any_cons, this] at h
    have hrest : rest.any (fun q => q.1 == key) = false := by
      by_contra hc
      have : rest.any (fun q => q.1 == key) = true := by
        cases hr : rest.any (fun q => q.1 == key) with
        | true => rfl
        | false => exact absurd hr hc
      simp [List.any_cons, this] at h
    simp only [List.cons_append, configLookup]
    rw [List.find?_cons_of_neg _ (by simp [hp])]
    exact ih hrest

/-- Looking up the key just stored by `dictSet` yields the stored value. -/
theorem configLookup_dictSet (m : List (String × JValue)) (key : String)
    (v : JValue) : configLookup (dictSet m key v) key = some v := by
  by_cases h : m.any (fun q => q.1 == key) = true
  · rw [dictSet, if_pos h]
    exact configLookup_replaceAll m key v h
  · rw [dictSet, if_neg h]
    exact configLookup_append_single m key v (Bool.eq_false_iff.mpr h)

/-- C9: with the corresponding key absent from the loaded configuration,
the filter-input getters return their safe defaults (`False` for the three
category toggles and for linked files, the empty list for the two course-id
lists), while `get_token`, `get_moodle_domain` and `get_moodle_path` raise
`ValueError('Not yet configured!')`. -/
theorem claim_C9 (s : ConfigState) :
    (configLookup s.whole_config "download_submissions" = none →
      (get_download_submissions s).1 = JValue.bool false) ∧
    (configLookup s.whole_config "download_descriptions" = none →
      (get_download_descriptions s).1 = JValue.bool false) ∧
    (configLookup s.whole_config "download_databases" = none →
      (get_download_databases s).1 = JValue.bool false) ∧
    (configLookup s.whole_config "download_linked_files" = none →
      (get_download_linked_files s).1 = JValue.bool false) ∧
    (configLookup s.whole_config "download_course_ids" = none →
      (get_download_course_ids s).1 = JValue.intList []) ∧
    (configLookup s.whole_config "dont_download_course_ids" = none →
      (get_dont_download_course_ids s).1 = JValue.intList []) ∧
    (configLookup s.whole_config "token" = none →
      (get_token s).1 = Except.error "Not yet configured!") ∧
    (configLookup s.whole_config "moodle_domain" = none →
      (get_moodle_domain s).1 = Except.error "Not yet configured!") ∧
    (configLookup s.whole_config "moodle_path" = none →
      (get_moodle_path s).1 = Except.error "Not yet configured!") := by
  refine ⟨?_, ?_, ?_, ?_, ?_, ?_, ?_, ?_, ?_⟩ <;>
    (intro h; simp [get_download_submissions, get_download_descriptions,
      get_download_databases, get_download_linked_files,
      get_download_course_ids, get_dont_download_course_ids, get_token,
      get_moodle_domain, get_moodle_path, get_property, h])

/-- C9 (witness): the theorem applied to the empty configuration. -/
theorem claim_C9_witness :
    (get_download_submissions ⟨[], []⟩).1 = JValue.bool false ∧
    (get_download_course_ids ⟨[], []⟩).1 = JValue.intList [] ∧
    (get_token ⟨[], []⟩).1 = Except.error "Not yet configured!" := by
  have h := claim_C9 ⟨[], []⟩
  exact ⟨h.1 rfl, h.2.2.2.2.1 rfl, h.2.2.2.2.2.2.1 rfl⟩

/-- C10: `get_filename_character_map` is the only getter with a side
effect.  Every other getter returns the state unchanged; when the
`filename_character_map` key is absent, `get_filename_character_map`
stores the default Windows map through `set_property` (whose `_save`
rewrites the file, keeping `disk` equal to the dictionary) and returns it,
so the key is present afterwards; when the key is present the stored value
is returned with no state change. -/
theorem claim_C10 (s : ConfigState) :
    (get_download_submissions s).2 = s ∧
    (get_download_descriptions s).2 = s ∧
    (get_download_databases s).2 = s ∧
    (get_download_course_ids s).2 = s ∧
    (get_dont_download_course_ids s).2 = s ∧
    (get_download_linked_files s).2 = s ∧
    (get_options_of_courses s).2 = s ∧
    (get_token s).2 = s ∧
    (get_moodle_domain s).2 = s ∧
    (get_moodle_path s).2 = s ∧
    (get_download_options s).2 = s ∧
    (configLookup s.whole_config "filename_character_map" = none →
      get_filename_character_map s
        = (windows_map, set_property s "filename_character_map" windows_map) ∧
      configLookup (get_filename_character_map s).2.whole_config
        "filename_character_map" = some windows_map ∧
      (get_filename_character_map s).2.disk
        = (get_filename_character_map s).2.whole_config) ∧
    (∀ v, configLookup s.whole_config "filename_character_map" = some v →
      get_filename_character_map s = (v, s)) := by
  refine ⟨?_, ?_, ?_, ?_, ?_, ?_, ?_, ?_, ?_, ?_, rfl, ?_, ?_⟩
  · cases hv : get_property s "download_submissions" with
    | ok v => simp [get_download_submissions, hv]
    | error e => simp [get_download_submissions, hv]
  · cases hv : get_property s "download_descriptions" with
    | ok v => simp [get_download_descriptions, hv]
    | error e => simp [get_download_descriptions, hv]
  · cases hv : get_property s "download_databases" with
    | ok v => simp [get_download_databases, hv]
    | error e => simp [get_download_databases, hv]
  · cases hv : get_property s "download_course_ids" with
    | ok v => simp [get_download_course_ids, hv]
    | error e => simp [get_download_course_ids, hv]
  · cases hv : get_property s "dont_download_course_ids" with
    | ok v => simp [get_dont_download_course_ids, hv]
    | error e => simp [get_dont_download_course_ids, hv]
  · cases hv : get_property s "download_linked_files" with
    | ok v => simp [get_download_linked_files, hv]
    | error e => simp [get_download_linked_files, hv]
  · cases hv : get_property s "options_of_courses" with
    | ok v => simp [get_options_of_courses, hv]
    | error e => simp [get_options_of_courses, hv]
  · rfl
  · rfl
  · rfl
  · intro h
    have hprop : get_property s "filename_character_map"
        = Except.error ("The " ++ "filename_character_map"
          ++ "-Property is not yet configured!") := by
      simp [get_property, h]
    have hlook : configLookup
        (set_property s "filename_character_map" windows_map).whole_config
        "filename_character_map" = some windows_map :=
      configLookup_dictSet s.whole_config "filename_character_map" windows_map
    have hprop2 : get_property
        (set_property s "filename_character_map" windows_map)
        "filename_character_map" = Except.ok windows_map := by
      simp [get_property, hlook]
    have hres : get_filename_character_map s
        = (windows_map, set_property s "filename_character_map" windows_map) := by
      simp [get_filename_character_map, hprop,
        set_default_filename_character_map, hprop2]
    refine ⟨hres, ?_, ?_⟩
    · rw [hres]; exact hlook
    · rw [hres]; rfl
  · intro v h
    have hprop : get_property s "filename_character_map" = Except.ok v := by
      simp [get_property, h]
    simp [get_filename_character_map, hprop]

/-- C10 (witness): on the empty configuration the map getter stores and
returns the Windows map, while another getter leaves the state unchanged. -/
theorem claim_C10_witness :
    get_filename_character_map ⟨[], []⟩
      = (windows_map, set_property ⟨[], []⟩ "filename_character_map"
          windows_map) ∧
    (get_download_submissions ⟨[], []⟩).2 = (⟨[], []⟩ : ConfigState) := by
  have h := claim_C10 ⟨[], []⟩
  exact ⟨(h.2.2.2.2.2.2.2.2.2.2.2.1 rfl).1, h.1⟩

/-! ## Claims about the reconciliation engine: failure and idempotence
(C5, C8) -/

/-- `findDupIdentity` returns `none` exactly when the identities are
pairwise distinct. -/
theorem findDupIdentity_eq_none_iff (l : List SFile) :
    findDupIdentity l = none ↔ (l.map SFile.identity).Nodup := by
  induction l with
  | nil => simp [findDupIdentity]
  | cons f rest ih =>
    simp only [findDupIdentity, List.map_cons, List.nodup_cons]
    by_cases h : rest.any (fun g => g.identity == f.identity) = true
    · simp only [h, if_true]
      rcases List.any_eq_true.mp h with ⟨g, hg, hgf⟩
      have : f.identity ∈ rest.map SFile.identity :=
        List.mem_map.mpr ⟨g, hg, beq_iff_eq.mp hgf⟩
      simp [this]
    · simp only [h, if_false]
      have hnotin : f.identity ∉ rest.map SFile.identity := by
        intro hmem
        rcases List.mem_map.mp hmem with ⟨g, hg, hgf⟩
        exact h (List.any_eq_true.mpr ⟨g, hg, beq_iff_eq.mpr hgf⟩)
      simp [ih, hnotin]

/-- C5: when the new snapshot of a course holds two files with the same
identity, the diff aborts with a `DiffInconsistencyError` — it never
classifies either duplicate and no change-set (hence no commit) is
produced. -/
theorem claim_C5 (course_id : Nat) (old new : List SFile) (i j : Nat)
    (hi : i < new.length) (hj : j < new.length) (hij : i ≠ j)
    (hid : (new.get ⟨i, hi⟩).identity = (new.get ⟨j, hj⟩).identity) :
    ∃ err, diffCourse course_id old new = Except.error err := by
  have hnotnodup : ¬ (new.map SFile.identity).Nodup := by
    intro hn
    have hmapi : (new.map SFile.identity).get
        ⟨i, by simpa using hi⟩ = (new.get ⟨i, hi⟩).identity := by
      simp
    have hmapj : (new.map SFile.identity).get
        ⟨j, by simpa using hj⟩ = (new.get ⟨j, hj⟩).identity := by
      simp
    have := List.Nodup.get_inj_iff hn
      (i := ⟨i, by simpa using hi⟩) (j := ⟨j, by simpa using hj⟩)
    rw [hmapi, hmapj] at this
    exact hij (congrArg Fin.val (this.mp hid))
  cases hf : findDupIdentity new with
  | none => exact absurd ((findDupIdentity_eq_none_iff new).mp hf) hnotnodup
  | some d =>
    refine ⟨⟨course_id, d,
      (new.filter (fun f => f.identity == d)).map (fun f => f.path)⟩, ?_⟩
    simp only [diffCourse, hf]

/-- C5 (witness): two files with identity 1 in one course abort the diff;
in particular no change-set (not even an empty one) is produced. -/
theorem claim_C5_witness :
    diffCourse 7 [] [⟨1, "A", "p", 5⟩, ⟨1, "B", "q", 6⟩] ≠ Except.ok [] := by
  obtain ⟨err, herr⟩ := claim_C5 7 [] [⟨1, "A", "p", 5⟩, ⟨1, "B", "q", 6⟩] 0 1
    (by decide) (by decide) (by decide) (by decide)
  rw [herr]
  intro hcontra
  exact Except.noConfusion hcontra

/-- The matching loop of the diff, run on a state whose snapshot is
identical to it, consumes every record and emits no entry. -/
theorem runDiff_self (S : List SFile)
    (h : (S.map SFile.identity).Nodup) : runDiff S S = ([], []) := by
  induction S with
  | nil => rfl
  | cons n t ih =>
    have h' : (n.identity :: t.map SFile.identity).Nodup := by simpa using h
    rcases List.nodup_cons.mp h' with ⟨hn, ht⟩
    have hfind : (n :: t).find? (fun g => g.identity == n.identity)
        = some n := List.find?_cons_of_pos _ (by simp)
    have hfilter : (n :: t).filter (fun g => g.identity != n.identity) = t := by
      rw [List.filter_cons_of_neg (by simp)]
      apply List.filter_eq_self.mpr
      intro g hg
      simp only [bne_iff_ne, ne_eq, decide_not]
      simp only [decide_eq_true_eq] at *
      intro hgid
      exact hn (List.mem_map.mpr ⟨g, hg, hgid⟩)
    simp only [runDiff, hfind]
    rw [if_neg (fun hc => hc rfl), if_neg (fun hc => hc rfl)]
    rw [hfilter]
    exact ih ht

/-- C8: diffing a persisted state against the snapshot identical to it
yields the empty change-set — no New, Modified, Moved or Deleted entries. -/
theorem claim_C8 (course_id : Nat) (S : List SFile)
    (h : (S.map SFile.identity).Nodup) :
    diffCourse course_id S S = Except.ok [] := by
  have hdup : findDupIdentity S = none := (findDupIdentity_eq_none_iff S).mpr h
  simp only [diffCourse, hdup, runDiff_self S h, List.map_nil, List.append_nil]

/-- C8 (witness): a concrete two-file state diffs to the empty
change-set. -/
theorem claim_C8_witness :
    diffCourse 1 [⟨1, "A", "a", 5⟩, ⟨2, "B", "b", 6⟩]
      [⟨1, "A", "a", 5⟩, ⟨2, "B", "b", 6⟩] = Except.ok [] :=
  claim_C8 1 [⟨1, "A", "a", 5⟩, ⟨2, "B", "b", 6⟩] (by decide)

/-! ## Moved entries carry both endpoints (C7) -/

/-- Every Moved entry emitted by the matching loop links an old record (its
base, drawn from the unconsumed old records) to a new snapshot file, with
equal content hashes; when the two endpoints share their identity (an
identity match) the paths differ. -/
theorem runDiff_moved_entry (todo : List SFile) : ∀ (oldRem : List SFile)
    (e : ChangeEntry), e ∈ (runDiff oldRem todo).2 →
    e.kind = ChangeKind.moved →
    ∃ nf, e.linked_file = some nf ∧ nf ∈ todo ∧ e.base_file ∈ oldRem ∧
      e.base_file.content_hash = nf.content_hash ∧
      (e.base_file.identity = nf.identity → e.base_file.path ≠ nf.path) := by
  induction todo with
  | nil =>
    intro oldRem e he _
    simp [runDiff] at he
  | cons n todo ih =>
    intro oldRem e he hkind
    cases hf : oldRem.find? (fun g => g.identity == n.identity) with
    | some o =>
      have homem : o ∈ oldRem := List.mem_of_find?_eq_some hf
      simp only [runDiff, hf] at he
      by_cases hh : o.content_hash = n.content_hash
      · rw [if_neg (not_not_intro hh)] at he
        by_cases hp : o.path = n.path
        · rw [if_neg (not_not_intro hp)] at he
          obtain ⟨nf, h1, h2, h3, h4, h5⟩ := ih _ e he hkind
          exact ⟨nf, h1, List.mem_cons_of_mem _ h2,
            List.mem_of_mem_filter h3, h4, h5⟩
        · rw [if_pos hp] at he
          rcases List.mem_cons.mp he with rfl | he'
          · exact ⟨n, rfl, List.mem_cons_self n todo, homem, hh, fun _ => hp⟩
          · obtain ⟨nf, h1, h2, h3, h4, h5⟩ := ih _ e he' hkind
            exact ⟨nf, h1, List.mem_cons_of_mem _ h2,
              List.mem_of_mem_filter h3, h4, h5⟩
      · rw [if_pos hh] at he
        rcases List.mem_cons.mp he with rfl | he'
        · simp at hkind
        · obtain ⟨nf, h1, h2, h3, h4, h5⟩ := ih _ e he' hkind
          exact ⟨nf, h1, List.mem_cons_of_mem _ h2,
            List.mem_of_mem_filter h3, h4, h5⟩
    | none =>
      cases hm : minByPath (oldRem.filter (fun g =>
          g.content_hash == n.content_hash && g.size == n.size)) with
      | some o =>
        have hocand := minByPath_mem hm
        have homem : o ∈ oldRem := List.mem_of_mem_filter hocand
        have hprops := List.of_mem_filter hocand
        have hhash : o.content_hash = n.content_hash := by
          simp only [Bool.and_eq_true, beq_iff_eq] at hprops
          exact hprops.1
        have hoid : o.identity ≠ n.identity := by
          intro hcontra
          have hno := List.find?_eq_none.mp hf o homem
          simp [hcontra] at hno
        simp only [runDiff, hf, hm] at he
        rcases List.mem_cons.mp he with rfl | he'
        · exact ⟨n, rfl, List.mem_cons_self n todo, homem, hhash,
            fun hc => absurd hc hoid⟩
        · obtain ⟨nf, h1, h2, h3, h4, h5⟩ := ih _ e he' hkind
          simp only [removeOne] at h3
          exact ⟨nf, h1, List.mem_cons_of_mem _ h2,
            (List.eraseP_sublist oldRem).subset h3, h4, h5⟩
      | none =>
        simp only [runDiff, hf, hm] at he
        rcases List.mem_cons.mp he with rfl | he'
        · simp at hkind
        · obtain ⟨nf, h1, h2, h3, h4, h5⟩ := ih _ e he' hkind
          exact ⟨nf, h1, List.mem_cons_of_mem _ h2, h3, h4, h5⟩

/-- C7: in a successfully produced change-set, every Moved entry carries
both endpoints: its `base_file` is the old record (so `base_file.path` is
the old path) and its `linked_file` is present and is the new snapshot
record (so `linked_file.path` is the new path); a Moved entry never has an
absent `linked_file`. -/
theorem claim_C7 (course_id : Nat) (old new : List SFile)
    (cs : List ChangeEntry)
    (hok : diffCourse course_id old new = Except.ok cs)
    (e : ChangeEntry) (he : e ∈ cs) (hkind : e.kind = ChangeKind.moved) :
    ∃ nf, e.linked_file = some nf ∧ nf ∈ new ∧ e.base_file ∈ old := by
  cases hd : findDupIdentity new with
  | some i => simp [diffCourse, hd] at hok
  | none =>
    simp only [diffCourse, hd] at hok
    obtain rfl : (runDiff old new).2
        ++ (runDiff old new).1.map
          (fun o => ⟨o, ChangeKind.deleted, none⟩) = cs := by
      simpa using hok
    rcases List.mem_append.mp he with he' | he'
    · obtain ⟨nf, h1, h2, h3, _, _⟩ := runDiff_moved_entry new old e he' hkind
      exact ⟨nf, h1, h2, h3⟩
    · rcases List.mem_map.mp he' with ⟨o, _, rfl⟩
      simp at hkind

/-- C7 (witness): a concrete rename produces a Moved entry whose
`linked_file` is present and is the new record, and whose `base_file` is
the old record. -/
theorem claim_C7_witness :
    (⟨⟨1, "A", "a.pdf", 5⟩, ChangeKind.moved,
        some ⟨1, "A", "b.pdf", 5⟩⟩ : ChangeEntry).linked_file
      = some ⟨1, "A", "b.pdf", 5⟩ ∧
    (⟨1, "A", "b.pdf", 5⟩ : SFile) ∈ [(⟨1, "A", "b.pdf", 5⟩ : SFile)] ∧
    (⟨⟨1, "A", "a.pdf", 5⟩, ChangeKind.moved,
        some ⟨1, "A", "b.pdf", 5⟩⟩ : ChangeEntry).base_file
      ∈ [(⟨1, "A", "a.pdf", 5⟩ : SFile)] := by
  obtain ⟨nf, h1, h2, h3⟩ :=
    claim_C7 1 [⟨1, "A", "a.pdf", 5⟩] [⟨1, "A", "b.pdf", 5⟩]
      [⟨⟨1, "A", "a.pdf", 5⟩, ChangeKind.moved, some ⟨1, "A", "b.pdf", 5⟩⟩]
      (by rfl)
      ⟨⟨1, "A", "a.pdf", 5⟩, ChangeKind.moved, some ⟨1, "A", "b.pdf", 5⟩⟩
      (List.mem_singleton.mpr rfl) rfl
  have hnf : nf = ⟨1, "A", "b.pdf", 5⟩ := (Option.some.inj h1).symm
  subst hnf
  exact ⟨h1, h2, h3⟩

/-! ## Bookkeeping lemmas for the matching loop -/

/-- The unconsumed old records left by the loop are a sublist of the old
records it started from. -/
theorem runDiff_fst_sublist (todo : List SFile) : ∀ oldRem : List SFile,
    (runDiff oldRem todo).1.Sublist oldRem := by
  induction todo with
  | nil => intro oldRem; simp [runDiff]
  | cons n todo ih =>
    intro oldRem
    cases hf : oldRem.find? (fun g => g.identity == n.identity) with
    | some o =>
      simp only [runDiff, hf]
      by_cases hh : o.content_hash = n.content_hash
      · rw [if_neg (not_not_intro hh)]
        by_cases hp : o.path = n.path
        · rw [if_neg (not_not_intro hp)]
          exact (ih _).trans (List.filter_sublist oldRem)
        · rw [if_pos hp]
          exact (ih _).trans (List.filter_sublist oldRem)
      · rw [if_pos hh]
        exact (ih _).trans (List.filter_sublist oldRem)
    | none =>
      cases hm : minByPath (oldRem.filter (fun g =>
          g.content_hash == n.content_hash && g.size == n.size)) with
      | some o =>
        simp only [runDiff, hf, hm]
        exact (ih _).trans (List.eraseP_sublist oldRem)
      | none =>
        simp only [runDiff, hf, hm]
        exact ih oldRem

/-- The identity that was just consumed does not occur among the records
kept by the identity filter. -/
theorem ids_filter_ne (l : List SFile) (k : Nat) :
    k ∉ (l.filter (fun g => g.identity != k)).map SFile.identity := by
  intro hmem
  rcases List.mem_map.mp hmem with ⟨g, hg, hgk⟩
  have := List.of_mem_filter hg
  simp [hgk] at this

/-- A record with a different identity survives the identity filter. -/
theorem mem_filter_ne {l : List SFile} {g : SFile} {k : Nat} (hg : g ∈ l)
    (hne : g.identity ≠ k) : g ∈ l.filter (fun x => x.identity != k) :=
  List.mem_filter.mpr ⟨hg, by simpa using hne⟩

/-- A record different from the consumed one survives `removeOne`. -/
theorem mem_removeOne_of_ne {l : List SFile} {o x : SFile} (hx : x ∈ l)
    (hne : x ≠ o) : x ∈ removeOne l o := by
  rw [removeOne, ← List.erase_eq_eraseP']
  exact (List.mem_erase_of_ne hne).mpr hx

/-- Consuming a record by `removeOne` removes its identity, when the
identities were pairwise distinct. -/
theorem id_not_mem_removeOne {l : List SFile} {o : SFile}
    (h : (l.map SFile.identity).Nodup) (ho : o ∈ l) :
    o.identity ∉ (removeOne l o).map SFile.identity := by
  intro hmem
  rcases List.mem_map.mp hmem with ⟨x, hx, hxid⟩
  have hxl : x ∈ l := (List.eraseP_sublist l).subset hx
  have hxo : x = o := List.inj_on_of_nodup_map h hxl ho hxid
  subst hxo
  rw [removeOne, ← List.erase_eq_eraseP'] at hx
  exact (List.Nodup.of_map SFile.identity h).not_mem_erase hx

/-- `Mentions` on an entry without linked file. -/
theorem mentions_none_iff (b : SFile) (k : ChangeKind) (i : Nat) :
    Mentions ⟨b, k, none⟩ i = true ↔ b.identity = i := by
  simp [Mentions]

/-- `Mentions` on an entry with a linked file. -/
theorem mentions_some_iff (b : SFile) (k : ChangeKind) (nf : SFile) (i : Nat) :
    Mentions ⟨b, k, some nf⟩ i = true ↔
      (b.identity = i ∨ nf.identity = i) := by
  simp [Mentions]

/-- Booleanization helper. -/
theorem mentions_false_of_not {e : ChangeEntry} {i : Nat}
    (h : ¬ Mentions e i = true) : Mentions e i = false := by
  cases hm : Mentions e i
  · rfl
  · exact absurd hm h

theorem runDiff_main (old new : List SFile)
    (hB : ∀ n ∈ new, n.identity ∉ old.map SFile.identity →
      ∀ g ∈ old, g.identity ∈ new.map SFile.identity →
        ¬(g.content_hash = n.content_hash ∧ g.size = n.size)) :
    ∀ (todo oldRem : List SFile),
    (oldRem.map SFile.identity).Nodup →
    (todo.map SFile.identity).Nodup →
    (∀ m ∈ todo, m ∈ new) →
    (∀ g ∈ oldRem, g ∈ old) →
    (∀ m ∈ todo, m.identity ∈ old.map SFile.identity →
      m.identity ∈ oldRem.map SFile.identity) →
    (∀ e ∈ (runDiff oldRem todo).2, ∀ i : Nat, Mentions e i = true →
      ((i ∈ todo.map SFile.identity ∨
        (i ∉ new.map SFile.identity ∧ i ∈ oldRem.map SFile.identity)) ∧
       i ∉ (runDiff oldRem todo).1.map SFile.identity)) ∧
    ((runDiff oldRem todo).2.Pairwise
      (fun e1 e2 => ∀ i : Nat, Mentions e1 i = true →
        Mentions e2 i = false)) ∧
    (∀ o ∈ oldRem, ∀ m ∈ todo, o.identity = m.identity →
      o.content_hash = m.content_hash → o.path = m.path →
      ((∀ e ∈ (runDiff oldRem todo).2, Mentions e o.identity = false) ∧
       o.identity ∉ (runDiff oldRem todo).1.map SFile.identity)) ∧
    (∀ o ∈ oldRem, ∀ m ∈ todo, o.identity = m.identity →
      o.content_hash ≠ m.content_hash →
      ∃ e ∈ (runDiff oldRem todo).2, e.kind = ChangeKind.modified ∧
        e.base_file.identity = m.identity ∧
        e.base_file.content_hash = m.content_hash ∧
        e.base_file.path = o.path) := by
  intro todo
  induction todo with
  | nil =>
    intro oldRem h1 h2 h3 h4 h5
    refine ⟨?_, ?_, ?_, ?_⟩
    · intro e he
      simp [runDiff] at he
    · simp [runDiff]
    · intro o _ m hm
      simp at hm
    · intro o _ m hm
      simp at hm
  | cons n todo ih =>
    intro oldRem h1 h2 h3 h4 h5
    have h2' : (n.identity :: todo.map SFile.identity).Nodup := by simpa using h2
    have hnid : n.identity ∉ todo.map SFile.identity := (List.nodup_cons.mp h2').1
    have h2t : (todo.map SFile.identity).Nodup := (List.nodup_cons.mp h2').2
    have hnnew : n ∈ new := h3 n (List.mem_cons_self n todo)
    have h3t : ∀ m ∈ todo, m ∈ new := fun m hm => h3 m (List.mem_cons_of_mem n hm)
    have hidlift : ∀ i : Nat, i ∈ todo.map SFile.identity →
        i ∈ (n :: todo).map SFile.identity := by
      intro i hi
      rw [List.map_cons]
      exact List.mem_cons_of_mem _ hi
    have hheadid : n.identity ∈ (n :: todo).map SFile.identity := by
      rw [List.map_cons]; exact List.mem_cons_self _ _
    cases hf : oldRem.find? (fun g => g.identity == n.identity) with
    | some o0 =>
      have ho0mem : o0 ∈ oldRem := List.mem_of_find?_eq_some hf
      have ho0id : o0.identity = n.identity := by
        have := List.find?_some hf
        simpa using this
      have h1f : ((oldRem.filter (fun g => g.identity != n.identity)).map
          SFile.identity).Nodup :=
        h1.sublist ((List.filter_sublist oldRem).map SFile.identity)
      have h4f : ∀ g ∈ oldRem.filter (fun g => g.identity != n.identity),
          g ∈ old := fun g hg => h4 g (List.mem_of_mem_filter hg)
      have h5f : ∀ m ∈ todo, m.identity ∈ old.map SFile.identity →
          m.identity ∈ (oldRem.filter
            (fun g => g.identity != n.identity)).map SFile.identity := by
        intro m hm hold
        have hmo := h5 m (List.mem_cons_of_mem n hm) hold
        rcases List.mem_map.mp hmo with ⟨g, hg, hgid⟩
        have hmne : m.identity ≠ n.identity := by
          intro hcontra
          exact hnid (hcontra ▸ List.mem_map.mpr ⟨m, hm, rfl⟩)
        exact List.mem_map.mpr
          ⟨g, mem_filter_ne hg (by rw [hgid]; exact hmne), hgid⟩
      obtain ⟨IH4, IH5, IH6, IH8⟩ :=
        ih (oldRem.filter (fun g => g.identity != n.identity))
          h1f h2t h3t h4f h5f
      have hsubr : (runDiff (oldRem.filter
          (fun g => g.identity != n.identity)) todo).1.Sublist
            (oldRem.filter (fun g => g.identity != n.identity)) :=
        runDiff_fst_sublist todo _
      have hnidr1 : n.identity ∉ (runDiff (oldRem.filter
          (fun g => g.identity != n.identity)) todo).1.map SFile.identity :=
        fun hx => ids_filter_ne oldRem n.identity
          ((hsubr.map SFile.identity).subset hx)
      have hfilterids : ∀ i : Nat, i ∈ (oldRem.filter
          (fun g => g.identity != n.identity)).map SFile.identity →
          i ∈ oldRem.map SFile.identity :=
        fun i hi => ((List.filter_sublist oldRem).map SFile.identity).subset hi
      have hmemfilter : ∀ o ∈ oldRem, ∀ m ∈ todo, o.identity = m.identity →
          o ∈ oldRem.filter (fun g => g.identity != n.identity) := by
        intro o ho m hm hom
        refine mem_filter_ne ho ?_
        rw [hom]
        intro hcontra
        exact hnid (hcontra ▸ List.mem_map.mpr ⟨m, hm, rfl⟩)
      by_cases hh : o0.content_hash = n.content_hash
      · by_cases hp : o0.path = n.path
        · -- unchanged: the record is consumed, no entry
          have hr : runDiff oldRem (n :: todo) =
              runDiff (oldRem.filter (fun g => g.identity != n.identity))
                todo := by
            simp only [runDiff, hf]
            rw [if_neg (not_not_intro hh), if_neg (not_not_intro hp)]
          refine ⟨?_, ?_, ?_, ?_⟩
          · intro e he i hi
            rw [hr] at he ⊢
            obtain ⟨hleft, hright⟩ := IH4 e he i hi
            refine ⟨?_, hright⟩
            rcases hleft with hl | ⟨hl1, hl2⟩
            · exact Or.inl (hidlift i hl)
            · exact Or.inr ⟨hl1, hfilterids i hl2⟩
          · rw [hr]
            exact IH5
          · intro o ho m hm hom hohash hopath
            rw [hr]
            rcases List.mem_cons.mp hm with hmn | hm'
            · -- m = n : o is the very record being consumed
              rw [hmn] at hom hohash hopath
              have ho0eq : o = o0 :=
                List.inj_on_of_nodup_map h1 ho ho0mem (hom.trans ho0id.symm)
              refine ⟨?_, ?_⟩
              · intro e he
                apply mentions_false_of_not
                intro hEM
                obtain ⟨hleft, _⟩ := IH4 e he o.identity hEM
                rcases hleft with hl | ⟨hl1, _⟩
                · rw [hom] at hl
                  exact hnid hl
                · exact hl1 (hom ▸ List.mem_map.mpr ⟨n, hnnew, rfl⟩)
              · intro hx
                have := (hsubr.map SFile.identity).subset hx
                rw [hom] at this
                exact ids_filter_ne oldRem n.identity this
            · exact IH6 o (hmemfilter o ho m hm' hom) m hm' hom hohash hopath
          · intro o ho m hm hom hohash
            rw [hr]
            rcases List.mem_cons.mp hm with hmn | hm'
            · rw [hmn] at hom hohash
              have ho0eq : o = o0 :=
                List.inj_on_of_nodup_map h1 ho ho0mem (hom.trans ho0id.symm)
              rw [ho0eq] at hohash
              exact absurd hh hohash
            · exact IH8 o (hmemfilter o ho m hm' hom) m hm' hom hohash
        · -- moved by identity match
          have hr : runDiff oldRem (n :: todo) =
              ((runDiff (oldRem.filter (fun g => g.identity != n.identity))
                  todo).1,
                (⟨o0, ChangeKind.moved, some n⟩ : ChangeEntry) ::
                  (runDiff (oldRem.filter
                    (fun g => g.identity != n.identity)) todo).2) := by
            simp only [runDiff, hf]
            rw [if_neg (not_not_intro hh), if_pos hp]
          have hment : ∀ i : Nat,
              Mentions ⟨o0, ChangeKind.moved, some n⟩ i = true →
              i = n.identity := by
            intro i hi
            rcases (mentions_some_iff o0 ChangeKind.moved n i).mp hi with
              h | h
            · rw [← h, ho0id]
            · rw [← h]
          refine ⟨?_, ?_, ?_, ?_⟩
          · intro e he i hi
            rw [hr] at he ⊢
            rcases List.mem_cons.mp he with rfl | he'
            · obtain rfl := hment i hi
              exact ⟨Or.inl hheadid, hnidr1⟩
            · obtain ⟨hleft, hright⟩ := IH4 e he' i hi
              refine ⟨?_, hright⟩
              rcases hleft with hl | ⟨hl1, hl2⟩
              · exact Or.inl (hidlift i hl)
              · exact Or.inr ⟨hl1, hfilterids i hl2⟩
          · rw [hr]
            refine List.Pairwise.cons ?_ IH5
            intro e' he' i hi
            obtain rfl := hment i hi
            apply mentions_false_of_not
            intro hEM
            obtain ⟨hleft, _⟩ := IH4 e' he' n.identity hEM
            rcases hleft with hl | ⟨hl1, _⟩
            · exact hnid hl
            · exact hl1 (List.mem_map.mpr ⟨n, hnnew, rfl⟩)
          · intro o ho m hm hom hohash hopath
            rcases List.mem_cons.mp hm with hmn | hm'
            · rw [hmn] at hom hohash hopath
              have ho0eq : o = o0 :=
                List.inj_on_of_nodup_map h1 ho ho0mem (hom.trans ho0id.symm)
              rw [ho0eq] at hopath
              exact absurd hopath hp
            · have hof : o ∈ oldRem.filter (fun g => g.identity != n.identity) :=
                hmemfilter o ho m hm' hom
              obtain ⟨hione, hitwo⟩ := IH6 o hof m hm' hom hohash hopath
              have hone : o.identity ≠ n.identity := by
                rw [hom]
                intro hcontra
                exact hnid (hcontra ▸ List.mem_map.mpr ⟨m, hm', rfl⟩)
              refine ⟨?_, ?_⟩
              · intro e he
                rw [hr] at he
                rcases List.mem_cons.mp he with rfl | he'
                · apply mentions_false_of_not
                  intro hEM
                  exact hone (hment o.identity hEM)
                · exact hione e he'
              · rw [hr]
                exact hitwo
          · intro o ho m hm hom hohash
            rcases List.mem_cons.mp hm with hmn | hm'
            · rw [hmn] at hom hohash
              have ho0eq : o = o0 :=
                List.inj_on_of_nodup_map h1 ho ho0mem (hom.trans ho0id.symm)
              rw [ho0eq] at hohash
              exact absurd hh hohash
            · obtain ⟨e, he, hprops⟩ :=
                IH8 o (hmemfilter o ho m hm' hom) m hm' hom hohash
              refine ⟨e, ?_, hprops⟩
              rw [hr]
              exact List.mem_cons_of_mem _ he
      · -- modified: hash differs
        have hr : runDiff oldRem (n :: todo) =
            ((runDiff (oldRem.filter (fun g => g.identity != n.identity))
                todo).1,
              (⟨{ o0 with content_hash := n.content_hash },
                ChangeKind.modified, none⟩ : ChangeEntry) ::
                (runDiff (oldRem.filter
                  (fun g => g.identity != n.identity)) todo).2) := by
          simp only [runDiff, hf]
          rw [if_pos hh]
        have hment : ∀ i : Nat,
            Mentions ⟨{ o0 with content_hash := n.content_hash },
              ChangeKind.modified, none⟩ i = true → i = n.identity := by
          intro i hi
          have := (mentions_none_iff _ ChangeKind.modified i).mp hi
          rw [← this]
          exact ho0id
        refine ⟨?_, ?_, ?_, ?_⟩
        · intro e he i hi
          rw [hr] at he ⊢
          rcases List.mem_cons.mp he with rfl | he'
          · obtain rfl := hment i hi
            exact ⟨Or.inl hheadid, hnidr1⟩
          · obtain ⟨hleft, hright⟩ := IH4 e he' i hi
            refine ⟨?_, hright⟩
            rcases hleft with hl | ⟨hl1, hl2⟩
            · exact Or.inl (hidlift i hl)
            · exact Or.inr ⟨hl1, hfilterids i hl2⟩
        · rw [hr]
          refine List.Pairwise.cons ?_ IH5
          intro e' he' i hi
          obtain rfl := hment i hi
          apply mentions_false_of_not
          intro hEM
          obtain ⟨hleft, _⟩ := IH4 e' he' n.identity hEM
          rcases hleft with hl | ⟨hl1, _⟩
          · exact hnid hl
          · exact hl1 (List.mem_map.mpr ⟨n, hnnew, rfl⟩)
        · intro o ho m hm hom hohash hopath
          rcases List.mem_cons.mp hm with hmn | hm'
          · rw [hmn] at hom hohash hopath
            have ho0eq : o = o0 :=
              List.inj_on_of_nodup_map h1 ho ho0mem (hom.trans ho0id.symm)
            rw [ho0eq] at hohash
            exact absurd hohash hh
          · have hof : o ∈ oldRem.filter (fun g => g.identity != n.identity) :=
              hmemfilter o ho m hm' hom
            obtain ⟨hione, hitwo⟩ := IH6 o hof m hm' hom hohash hopath
            have hone : o.identity ≠ n.identity := by
              rw [hom]
              intro hcontra
              exact hnid (hcontra ▸ List.mem_map.mpr ⟨m, hm', rfl⟩)
            refine ⟨?_, ?_⟩
            · intro e he
              rw [hr] at he
              rcases List.mem_cons.mp he with rfl | he'
              · apply mentions_false_of_not
                intro hEM
                exact hone (hment o.identity hEM)
              · exact hione e he'
            · rw [hr]
              exact hitwo
        · intro o ho m hm hom hohash
          rcases List.mem_cons.mp hm with hmn | hm'
          · rw [hmn] at hom hohash ⊢
            have ho0eq : o = o0 :=
              List.inj_on_of_nodup_map h1 ho ho0mem (hom.trans ho0id.symm)
            refine ⟨⟨{ o0 with content_hash := n.content_hash },
              ChangeKind.modified, none⟩, ?_, rfl, ho0id, rfl, ?_⟩
            · rw [hr]
              exact List.mem_cons_self _ _
            · rw [ho0eq]
          · obtain ⟨e, he, hprops⟩ :=
              IH8 o (hmemfilter o ho m hm' hom) m hm' hom hohash
            refine ⟨e, ?_, hprops⟩
            rw [hr]
            exact List.mem_cons_of_mem _ he
    | none =>
      have hfnone : ∀ g ∈ oldRem, g.identity ≠ n.identity := by
        intro g hg
        have := List.find?_eq_none.mp hf g hg
        simpa using this
      have hnotin : n.identity ∉ oldRem.map SFile.identity := by
        intro hx
        rcases List.mem_map.mp hx with ⟨g, hg, hgid⟩
        exact hfnone g hg hgid
      have hnold : n.identity ∉ old.map SFile.identity := by
        intro hx
        exact hnotin (h5 n (List.mem_cons_self n todo) hx)
      cases hm : minByPath (oldRem.filter (fun g =>
          g.content_hash == n.content_hash && g.size == n.size)) with
      | some o0 =>
        have hocand := minByPath_mem hm
        have ho0mem : o0 ∈ oldRem := List.mem_of_mem_filter hocand
        have hprops := List.of_mem_filter hocand
        have hbhash : o0.content_hash = n.content_hash := by
          simp only [Bool.and_eq_true, beq_iff_eq] at hprops
          exact hprops.1
        have hbsize : o0.size = n.size := by
          simp only [Bool.and_eq_true, beq_iff_eq] at hprops
          exact hprops.2
        have hKey : o0.identity ∉ new.map SFile.identity := by
          intro hx
          exact hB n hnnew hnold o0 (h4 o0 ho0mem) hx ⟨hbhash, hbsize⟩
        have h1r : ((removeOne oldRem o0).map SFile.identity).Nodup :=
          h1.sublist ((List.eraseP_sublist oldRem).map SFile.identity)
        have h4r : ∀ g ∈ removeOne oldRem o0, g ∈ old :=
          fun g hg => h4 g ((List.eraseP_sublist oldRem).subset hg)
        have h5r : ∀ m ∈ todo, m.identity ∈ old.map SFile.identity →
            m.identity ∈ (removeOne oldRem o0).map SFile.identity := by
          intro m hmm hold
          have hmo := h5 m (List.mem_cons_of_mem n hmm) hold
          rcases List.mem_map.mp hmo with ⟨g, hg, hgid⟩
          have hgne : g ≠ o0 := by
            intro hcontra
            apply hKey
            rw [← hcontra, hgid]
            exact List.mem_map.mpr ⟨m, h3t m hmm, rfl⟩
          exact List.mem_map.mpr ⟨g, mem_removeOne_of_ne hg hgne, hgid⟩
        obtain ⟨IH4, IH5, IH6, IH8⟩ := ih (removeOne oldRem o0) h1r h2t h3t h4r h5r
        have hsubr : (runDiff (removeOne oldRem o0) todo).1.Sublist
            (removeOne oldRem o0) := runDiff_fst_sublist todo _
        have ho0idsr : o0.identity ∉ (removeOne oldRem o0).map SFile.identity :=
          id_not_mem_removeOne h1 ho0mem
        have hremids : ∀ i : Nat,
            i ∈ (removeOne oldRem o0).map SFile.identity →
            i ∈ oldRem.map SFile.identity :=
          fun i hi => ((List.eraseP_sublist oldRem).map SFile.identity).subset hi
        have hr : runDiff oldRem (n :: todo) =
            ((runDiff (removeOne oldRem o0) todo).1,
              (⟨o0, ChangeKind.moved, some n⟩ : ChangeEntry) ::
                (runDiff (removeOne oldRem o0) todo).2) := by
          simp only [runDiff, hf, hm]
        have hment : ∀ i : Nat,
            Mentions ⟨o0, ChangeKind.moved, some n⟩ i = true →
            i = o0.identity ∨ i = n.identity := by
          intro i hi
          rcases (mentions_some_iff o0 ChangeKind.moved n i).mp hi with h | h
          · exact Or.inl h.symm
          · exact Or.inr h.symm
        refine ⟨?_, ?_, ?_, ?_⟩
        · intro e he i hi
          rw [hr] at he ⊢
          rcases List.mem_cons.mp he with rfl | he'
          · rcases hment i hi with rfl | rfl
            · refine ⟨Or.inr ⟨hKey, List.mem_map.mpr ⟨o0, ho0mem, rfl⟩⟩, ?_⟩
              intro hx
              exact ho0idsr ((hsubr.map SFile.identity).subset hx)
            · refine ⟨Or.inl hheadid, ?_⟩
              intro hx
              exact hnotin (hremids n.identity
                ((hsubr.map SFile.identity).subset hx))
          · obtain ⟨hleft, hright⟩ := IH4 e he' i hi
            refine ⟨?_, hright⟩
            rcases hleft with hl | ⟨hl1, hl2⟩
            · exact Or.inl (hidlift i hl)
            · exact Or.inr ⟨hl1, hremids i hl2⟩
        · rw [hr]
          refine List.Pairwise.cons ?_ IH5
          intro e' he' i hi
          apply mentions_false_of_not
          intro hEM
          obtain ⟨hleft, _⟩ := IH4 e' he' i hEM
          rcases hment i hi with rfl | rfl
          · rcases hleft with hl | ⟨_, hl2⟩
            · rcases List.mem_map.mp hl with ⟨m, hmm, hmid⟩
              exact hKey (hmid ▸ List.mem_map.mpr ⟨m, h3t m hmm, rfl⟩)
            · exact ho0idsr hl2
          · rcases hleft with hl | ⟨hl1, _⟩
            · exact hnid hl
            · exact hl1 (List.mem_map.mpr ⟨n, hnnew, rfl⟩)
        · intro o ho m hmm hom hohash hopath
          rcases List.mem_cons.mp hmm with hmn | hm'
          · rw [hmn] at hom
            exact absurd hom (hfnone o ho)
          · have hone : o ≠ o0 := by
              intro hcontra
              apply hKey
              rw [← hcontra, hom]
              exact List.mem_map.mpr ⟨m, h3t m hm', rfl⟩
            have hor : o ∈ removeOne oldRem o0 := mem_removeOne_of_ne ho hone
            obtain ⟨hione, hitwo⟩ := IH6 o hor m hm' hom hohash hopath
            refine ⟨?_, ?_⟩
            · intro e he
              rw [hr] at he
              rcases List.mem_cons.mp he with rfl | he'
              · apply mentions_false_of_not
                intro hEM
                rcases hment o.identity hEM with hx | hx
                · apply hKey
                  rw [← hx, hom]
                  exact List.mem_map.mpr ⟨m, h3t m hm', rfl⟩
                · rw [hom] at hx
                  exact hnid (hx ▸ List.mem_map.mpr ⟨m, hm', rfl⟩)
              · exact hione e he'
            · rw [hr]
              exact hitwo
        · intro o ho m hmm hom hohash
          rcases List.mem_cons.mp hmm with hmn | hm'
          · rw [hmn] at hom
            exact absurd hom (hfnone o ho)
          · have hone : o ≠ o0 := by
              intro hcontra
              apply hKey
              rw [← hcontra, hom]
              exact List.mem_map.mpr ⟨m, h3t m hm', rfl⟩
            obtain ⟨e, he, hprops2⟩ :=
              IH8 o (mem_removeOne_of_ne ho hone) m hm' hom hohash
            refine ⟨e, ?_, hprops2⟩
            rw [hr]
            exact List.mem_cons_of_mem _ he
      | none =>
        obtain ⟨IH4, IH5, IH6, IH8⟩ := ih oldRem h1 h2t h3t h4 (by
          intro m hmm hold
          exact h5 m (List.mem_cons_of_mem n hmm) hold)
        have hsubr : (runDiff oldRem todo).1.Sublist oldRem :=
          runDiff_fst_sublist todo _
        have hr : runDiff oldRem (n :: todo) =
            ((runDiff oldRem todo).1,
              (⟨n, ChangeKind.new, none⟩ : ChangeEntry) ::
                (runDiff oldRem todo).2) := by
          simp only [runDiff, hf, hm]
        have hment : ∀ i : Nat,
            Mentions ⟨n, ChangeKind.new, none⟩ i = true →
            i = n.identity := by
          intro i hi
          exact ((mentions_none_iff n ChangeKind.new i).mp hi).symm
        refine ⟨?_, ?_, ?_, ?_⟩
        · intro e he i hi
          rw [hr] at he ⊢
          rcases List.mem_cons.mp he with rfl | he'
          · obtain rfl := hment i hi
            refine ⟨Or.inl hheadid, ?_⟩
            intro hx
            exact hnotin ((hsubr.map SFile.identity).subset hx)
          · obtain ⟨hleft, hright⟩ := IH4 e he' i hi
            refine ⟨?_, hright⟩
            rcases hleft with hl | hl
            · exact Or.inl (hidlift i hl)
            · exact Or.inr hl
        · rw [hr]
          refine List.Pairwise.cons ?_ IH5
          intro e' he' i hi
          obtain rfl := hment i hi
          apply mentions_false_of_not
          intro hEM
          obtain ⟨hleft, _⟩ := IH4 e' he' n.identity hEM
          rcases hleft with hl | ⟨hl1, _⟩
          · exact hnid hl
          · exact hl1 (List.mem_map.mpr ⟨n, hnnew, rfl⟩)
        · intro o ho m hmm hom hohash hopath
          rcases List.mem_cons.mp hmm with hmn | hm'
          · rw [hmn] at hom
            exact absurd hom (hfnone o ho)
          · obtain ⟨hione, hitwo⟩ := IH6 o ho m hm' hom hohash hopath
            have hone : o.identity ≠ n.identity := by
              rw [hom]
              intro hcontra
              exact hnid (hcontra ▸ List.mem_map.mpr ⟨m, hm', rfl⟩)
            refine ⟨?_, ?_⟩
            · intro e he
              rw [hr] at he
              rcases List.mem_cons.mp he with rfl | he'
              · apply mentions_false_of_not
                intro hEM
                exact hone (hment o.identity hEM)
              · exact hione e he'
            · rw [hr]
              exact hitwo
        · intro o ho m hmm hom hohash
          rcases List.mem_cons.mp hmm with hmn | hm'
          · rw [hmn] at hom
            exact absurd hom (hfnone o ho)
          · obtain ⟨e, he, hprops2⟩ := IH8 o ho m hm' hom hohash
            refine ⟨e, ?_, hprops2⟩
            rw [hr]
            exact List.mem_cons_of_mem _ he

/-! ## Claims C3 and C6 -/

/-- C3 (counterexample): the spec's own secondary `(content_hash, size)`
matching can consume the old record of a file whose identity reappears
unchanged later in the snapshot.  Identity 1 is unchanged (same identity,
hash and path in old and new), yet it is mentioned by two change entries:
as the base of the Moved pair stolen by the identity-reissued file 2, and
again as a New entry. -/
theorem claim_C3_counterexample :
    diffCourse 9 [⟨1, "H", "p", 5⟩] [⟨2, "H", "q", 5⟩, ⟨1, "H", "p", 5⟩]
      = Except.ok [⟨⟨1, "H", "p", 5⟩, ChangeKind.moved, some ⟨2, "H", "q", 5⟩⟩,
          ⟨⟨1, "H", "p", 5⟩, ChangeKind.new, none⟩] ∧
    ¬ (([⟨⟨1, "H", "p", 5⟩, ChangeKind.moved, some ⟨2, "H", "q", 5⟩⟩,
          ⟨⟨1, "H", "p", 5⟩, ChangeKind.new, none⟩] : List ChangeEntry).filter
        (fun e => Mentions e 1)).length ≤ 1 := by
  constructor
  · rfl
  · decide

/-- C3 (amended): the output guarantee holds whenever no secondary
hash/size match can steal an old record whose identity also occurs in the
new snapshot: then every file identity appears in at most one ChangeEntry
(each entry carrying exactly one kind by construction), and a file whose
identity, content hash and path are all unchanged appears in no entry. -/
theorem claim_C3_amended (course_id : Nat) (old new : List SFile)
    (cs : List ChangeEntry)
    (hold : (old.map SFile.identity).Nodup)
    (hB : ∀ n ∈ new, n.identity ∉ old.map SFile.identity →
      ∀ g ∈ old, g.identity ∈ new.map SFile.identity →
        ¬(g.content_hash = n.content_hash ∧ g.size = n.size))
    (hok : diffCourse course_id old new = Except.ok cs) :
    (∀ i : Nat, (cs.filter (fun e => Mentions e i)).length ≤ 1) ∧
    (∀ o ∈ old, ∀ n ∈ new, o.identity = n.identity →
      o.content_hash = n.content_hash → o.path = n.path →
      ∀ e ∈ cs, Mentions e o.identity = false) := by
  cases hd : findDupIdentity new with
  | some i => simp [diffCourse, hd] at hok
  | none =>
    have hnew : (new.map SFile.identity).Nodup :=
      (findDupIdentity_eq_none_iff new).mp hd
    have hcs : cs = (runDiff old new).2
        ++ (runDiff old new).1.map
          (fun o => ⟨o, ChangeKind.deleted, none⟩) := by
      simp only [diffCourse, hd] at hok
      injection hok with h
      exact h.symm
    obtain ⟨O4, O5, O6, O8⟩ := runDiff_main old new hB new old hold hnew
      (fun m hm => hm) (fun g hg => hg) (fun m _ h => h)
    have hr1nodup : ((runDiff old new).1.map SFile.identity).Nodup :=
      hold.sublist ((runDiff_fst_sublist new old).map SFile.identity)
    have hdelpair : ((runDiff old new).1.map
        (fun o => (⟨o, ChangeKind.deleted, none⟩ : ChangeEntry))).Pairwise
        (fun e1 e2 => ∀ i : Nat, Mentions e1 i = true →
          Mentions e2 i = false) := by
      rw [List.pairwise_map]
      have hne : (runDiff old new).1.Pairwise
          (fun o1 o2 => o1.identity ≠ o2.identity) :=
        List.pairwise_map.mp hr1nodup
      refine hne.imp ?_
      intro o1 o2 h12 i hi
      apply mentions_false_of_not
      intro hEM
      have h1i := (mentions_none_iff o1 ChangeKind.deleted i).mp hi
      have h2i := (mentions_none_iff o2 ChangeKind.deleted i).mp hEM
      exact h12 (h1i.trans h2i.symm)
    have hcross : ∀ a ∈ (runDiff old new).2,
        ∀ b ∈ (runDiff old new).1.map
          (fun o => (⟨o, ChangeKind.deleted, none⟩ : ChangeEntry)),
        ∀ i : Nat, Mentions a i = true → Mentions b i = false := by
      intro a ha b hb i hi
      rcases List.mem_map.mp hb with ⟨o, ho, rfl⟩
      apply mentions_false_of_not
      intro hEM
      have hoi := (mentions_none_iff o ChangeKind.deleted i).mp hEM
      obtain ⟨_, hnotr1⟩ := O4 a ha i hi
      exact hnotr1 (hoi ▸ List.mem_map.mpr ⟨o, ho, rfl⟩)
    have hpw : cs.Pairwise (fun e1 e2 => ∀ i : Nat,
        Mentions e1 i = true → Mentions e2 i = false) := by
      rw [hcs]
      exact List.pairwise_append.mpr ⟨O5, hdelpair, hcross⟩
    constructor
    · intro i
      apply length_filter_le_one
      refine hpw.imp ?_
      intro e1 e2 h12 hcontra
      rw [h12 i hcontra.1] at hcontra
      exact Bool.false_ne_true hcontra.2
    · intro o ho n hn hid hhash hpath e he
      obtain ⟨hent, hnotr1⟩ := O6 o ho n hn hid hhash hpath
      rw [hcs] at he
      rcases List.mem_append.mp he with he' | he'
      · exact hent e he'
      · rcases List.mem_map.mp he' with ⟨o', ho', rfl⟩
        apply mentions_false_of_not
        intro hEM
        have hoi := (mentions_none_iff o' ChangeKind.deleted o.identity).mp hEM
        exact hnotr1 (hoi ▸ List.mem_map.mpr ⟨o', ho', rfl⟩)

/-- C3 (witness): for a state with an unchanged file (identity 1) and a
modified file (identity 2), identity 2 is mentioned at most once and the
unchanged identity 1 is mentioned by no entry. -/
theorem claim_C3_amended_witness :
    (([(⟨⟨2, "C", "q", 6⟩, ChangeKind.modified, none⟩ : ChangeEntry)].filter
        (fun e => Mentions e 2)).length ≤ 1) ∧
    Mentions ⟨⟨2, "C", "q", 6⟩, ChangeKind.modified, none⟩ 1 = false := by
  have h := claim_C3_amended 3 [⟨1, "A", "p", 5⟩, ⟨2, "B", "q", 6⟩]
    [⟨1, "A", "p", 5⟩, ⟨2, "C", "q", 6⟩]
    [⟨⟨2, "C", "q", 6⟩, ChangeKind.modified, none⟩]
    (by decide) (by decide) rfl
  exact ⟨h.1 2, h.2 ⟨1, "A", "p", 5⟩ (by decide) ⟨1, "A", "p", 5⟩ (by decide)
    rfl rfl rfl ⟨⟨2, "C", "q", 6⟩, ChangeKind.modified, none⟩ (by decide)⟩

/-- C6 (counterexample): an identity-reissued file can steal, by secondary
hash/size matching, the old record of identity 2 before the new file with
identity 2 is processed; the changed-hash file 2 is then classified New,
not Modified, and the stolen Moved pair links two equal paths. -/
theorem claim_C6_counterexample :
    diffCourse 5 [⟨1, "A", "p", 5⟩, ⟨2, "C", "q", 7⟩]
        [⟨3, "C", "q", 7⟩, ⟨2, "D", "q", 9⟩]
      = Except.ok [⟨⟨2, "C", "q", 7⟩, ChangeKind.moved, some ⟨3, "C", "q", 7⟩⟩,
          ⟨⟨2, "D", "q", 9⟩, ChangeKind.new, none⟩,
          ⟨⟨1, "A", "p", 5⟩, ChangeKind.deleted, none⟩] ∧
    (⟨2, "C", "q", 7⟩ : SFile).identity = (⟨2, "D", "q", 9⟩ : SFile).identity ∧
    (⟨2, "C", "q", 7⟩ : SFile).content_hash
      ≠ (⟨2, "D", "q", 9⟩ : SFile).content_hash ∧
    ([⟨⟨2, "C", "q", 7⟩, ChangeKind.moved, some ⟨3, "C", "q", 7⟩⟩,
        ⟨⟨2, "D", "q", 9⟩, ChangeKind.new, none⟩,
        ⟨⟨1, "A", "p", 5⟩, ChangeKind.deleted, none⟩] : List ChangeEntry).all
      (fun e => e.kind != ChangeKind.modified) = true ∧
    (⟨⟨2, "C", "q", 7⟩, ChangeKind.moved, some ⟨3, "C", "q", 7⟩⟩
      : ChangeEntry).base_file.path = "q" ∧
    ((⟨3, "C", "q", 7⟩ : SFile)).path = "q" := by
  refine ⟨rfl, ?_⟩
  decide

/-- C6 (amended): when no earlier secondary hash/size match consumes an old
record whose identity also occurs in the new snapshot, a hash change on an
identity-matched pair is always classified Modified (hash precedence over a
simultaneous path change, the entry keeping the old path and recording the
new hash); moreover every Moved entry links records with equal hashes, and
an identity-matched Moved entry always links differing paths (a Moved pair
from secondary matching relates different identities and may link equal
paths). -/
theorem claim_C6_amended (course_id : Nat) (old new : List SFile)
    (cs : List ChangeEntry)
    (hold : (old.map SFile.identity).Nodup)
    (hB : ∀ n ∈ new, n.identity ∉ old.map SFile.identity →
      ∀ g ∈ old, g.identity ∈ new.map SFile.identity →
        ¬(g.content_hash = n.content_hash ∧ g.size = n.size))
    (hok : diffCourse course_id old new = Except.ok cs) :
    (∀ o ∈ old, ∀ n ∈ new, o.identity = n.identity →
      o.content_hash ≠ n.content_hash →
      ∃ e ∈ cs, e.kind = ChangeKind.modified ∧
        e.base_file.identity = n.identity ∧
        e.base_file.content_hash = n.content_hash ∧
        e.base_file.path = o.path) ∧
    (∀ e ∈ cs, e.kind = ChangeKind.moved →
      ∃ nf, e.linked_file = some nf ∧
        e.base_file.content_hash = nf.content_hash ∧
        (e.base_file.identity = nf.identity →
          e.base_file.path ≠ nf.path)) := by
  cases hd : findDupIdentity new with
  | some i => simp [diffCourse, hd] at hok
  | none =>
    have hnew : (new.map SFile.identity).Nodup :=
      (findDupIdentity_eq_none_iff new).mp hd
    have hcs : cs = (runDiff old new).2
        ++ (runDiff old new).1.map
          (fun o => ⟨o, ChangeKind.deleted, none⟩) := by
      simp only [diffCourse, hd] at hok
      injection hok with h
      exact h.symm
    obtain ⟨_, _, _, O8⟩ := runDiff_main old new hB new old hold hnew
      (fun m hm => hm) (fun g hg => hg) (fun m _ h => h)
    constructor
    · intro o ho n hn hid hhash
      obtain ⟨e, he, hprops⟩ := O8 o ho n hn hid hhash
      refine ⟨e, ?_, hprops⟩
      rw [hcs]
      exact List.mem_append.mpr (Or.inl he)
    · intro e he hkind
      rw [hcs] at he
      rcases List.mem_append.mp he with he' | he'
      · obtain ⟨nf, h1, _, _, h4, h5⟩ :=
          runDiff_moved_entry new old e he' hkind
        exact ⟨nf, h1, h4, h5⟩
      · rcases List.mem_map.mp he' with ⟨o, _, rfl⟩
        simp at hkind

/-- C6 (witness): a concrete file whose hash and path both change is
classified Modified, keeping the old path. -/
theorem claim_C6_amended_witness :
    (⟨⟨1, "B", "p", 5⟩, ChangeKind.modified, none⟩ : ChangeEntry).kind
      = ChangeKind.modified ∧
    (⟨⟨1, "B", "p", 5⟩, ChangeKind.modified, none⟩
      : ChangeEntry).base_file.path = "p" := by
  have h := (claim_C6_amended 1 [⟨1, "A", "p", 5⟩] [⟨1, "B", "q", 5⟩]
      [⟨⟨1, "B", "p", 5⟩, ChangeKind.modified, none⟩]
      (by decide) (by decide) rfl).1
      ⟨1, "A", "p", 5⟩ (by decide) ⟨1, "B", "q", 5⟩ (by decide) rfl (by decide)
  rcases h with ⟨e, he, hkind, _, _, hpath⟩
  have : e = ⟨⟨1, "B", "p", 5⟩, ChangeKind.modified, none⟩ :=
    List.mem_singleton.mp he
  subst this
  exact ⟨hkind, hpath⟩
